import Mathlib

/-!
Verification of the rational SDP solver of Triple-SOS
(source file: src/core/sdpsos/solver.py).

The development shallowly embeds the solver: exact rational data is modelled
with ℚ, symmetric block matrices with Mathlib matrices over Fin, the
vectorized affine family with lists of rationals, and the mutable Python
object state with explicit record-passing.  The numeric backend (PICOS) is an
external collaborator and enters only through abstract outcome parameters.

The helper modules rationalize.py, ipm.py and utils.py are imported by
solver.py but are not part of the sources provided; the definitions taken
from them are modelled from the specification and are marked with a doc
comment starting with "Modelled from the spec:".
-/

namespace TripleSOS

open Matrix

/-! ### Quadratic forms and positive semidefiniteness -/

/-- Quadratic form vᵀ S v of a rational square matrix, written as a double sum. -/
def quadForm {n : ℕ} (S : Matrix (Fin n) (Fin n) ℚ) (v : Fin n → ℚ) : ℚ :=
  ∑ i, ∑ j, v i * S i j * v j

/-- Positive semidefiniteness of a rational matrix via its quadratic form
(the exact-arithmetic counterpart of the "all eigenvalues ≥ 0" glossary entry). -/
def IsPSD {n : ℕ} (S : Matrix (Fin n) (Fin n) ℚ) : Prop :=
  ∀ v : Fin n → ℚ, 0 ≤ quadForm S v

/-- Upper triangularity: all entries strictly below the diagonal vanish. -/
def IsUpperTri {n : ℕ} (U : Matrix (Fin n) (Fin n) ℚ) : Prop :=
  ∀ i j : Fin n, (j : ℕ) < (i : ℕ) → U i j = 0

/-! ### Exact congruence decomposition

Modelled from the spec (the routine lives in the absent rationalize.py):
"repeatedly pick a pivot from the remaining submatrix (diagonal entries
preferred; ...), eliminate the corresponding row/column via exact rational
arithmetic, and record the pivot value and elimination coefficients row in U.
Fails the candidate if any pivot is forced negative."  For a symmetric PSD
input a zero leading diagonal entry forces a zero leading row, so scanning
the leading diagonal entry (skipping it when its whole row vanishes, failing
when a pivot is forced negative) succeeds on exactly the same matrices. -/

/-- Elimination coefficients of the leading pivot row: v j = S 0 (j+1) / S 0 0. -/
def pivRow {n : ℕ} (S : Matrix (Fin (n + 1)) (Fin (n + 1)) ℚ) : Fin n → ℚ :=
  fun j => S 0 j.succ / S 0 0

/-- Schur complement after eliminating the leading row and column. -/
def schurComp {n : ℕ} (S : Matrix (Fin (n + 1)) (Fin (n + 1)) ℚ) :
    Matrix (Fin n) (Fin n) ℚ :=
  Matrix.of fun i j => S i.succ j.succ - S 0 0 * pivRow S i * pivRow S j

/-- Prepend the elimination row (1, v) to an upper-triangular factor. -/
def augment {n : ℕ} (v : Fin n → ℚ) (U : Matrix (Fin n) (Fin n) ℚ) :
    Matrix (Fin (n + 1)) (Fin (n + 1)) ℚ :=
  Matrix.of (Fin.cons (Fin.cons 1 v) (fun i => Fin.cons 0 (U i)))

/-- Extend a decomposition of the eliminated submatrix by the recorded pivot
value and elimination row. -/
def augStep {n : ℕ} (a : ℚ) (v : Fin n → ℚ)
    (r : Option (Matrix (Fin n) (Fin n) ℚ × (Fin n → ℚ))) :
    Option (Matrix (Fin (n + 1)) (Fin (n + 1)) ℚ × (Fin (n + 1) → ℚ)) :=
  match r with
  | some (U1, d1) => some (augment v U1, Fin.cons a d1)
  | none => none

/-- Exact congruence decomposition: on success returns (U, diag) with
S = Uᵀ · diag(d) · U, U upper triangular, d entrywise non-negative.
Returns none when a pivot is forced negative (witnessing non-PSD-ness). -/
def congruence : {n : ℕ} → Matrix (Fin n) (Fin n) ℚ →
    Option (Matrix (Fin n) (Fin n) ℚ × (Fin n → ℚ))
  | 0, _ => some (1, fun i => i.elim0)
  | n + 1, S =>
    if 0 < S 0 0 then
      augStep (S 0 0) (pivRow S) (congruence (schurComp S))
    else if S 0 0 = 0 then
      if ∀ j : Fin n, S 0 j.succ = 0 then
        augStep 0 (fun _ => 0) (congruence (S.submatrix Fin.succ Fin.succ))
      else none
    else none

/-! ### List-level linear algebra for the vectorized affine family -/

/-- Dot product of two rational lists (truncating at the shorter one). -/
def dotL (xs ys : List ℚ) : ℚ := (List.zipWith (· * ·) xs ys).sum

/-- Matrix–vector product for a row-major list matrix. -/
def matVecL (A : List (List ℚ)) (y : List ℚ) : List ℚ := A.map fun r => dotL r y

/-- Entrywise sum of two rational lists. -/
def vecAddL (xs ys : List ℚ) : List ℚ := List.zipWith (· + ·) xs ys

/-- Column j of a row-major list matrix (missing entries read as 0). -/
def colL (B : List (List ℚ)) (j : ℕ) : List ℚ := B.map fun r => r.getD j 0

/-- Matrix–matrix product for row-major list matrices. -/
def matMulL (A B : List (List ℚ)) : List (List ℚ) :=
  A.map fun r => (List.range (B.headD []).length).map fun j => dotL r (colL B j)

/-- Select the rows of a list at the given indices, in order (out-of-range
indices are dropped; the source would fault on them). -/
def selectRows {α : Type} (idxs : List ℕ) (xs : List α) : List α :=
  idxs.filterMap fun i => xs.get? i

/-- Modelled from the spec (upper_vec_of_symmetric_matrix of the absent
utils.py, with return_inds): the index pairs (i, j), i ≤ j < k, of the
upper-triangular vectorization of a k×k symmetric matrix, in row-major
order. -/
def upperVecInds (k : ℕ) : List (ℕ × ℕ) :=
  (List.range k).flatMap fun i => ((List.range k).drop i).map fun j => (i, j)

/-- Modelled from the spec (symmetric_matrix_from_upper_vec of the absent
utils.py): rebuild the k×k symmetric matrix from its upper-triangular
vectorization. -/
def symFromUpperVec (k : ℕ) (vec : List ℚ) : Matrix (Fin k) (Fin k) ℚ :=
  Matrix.of fun i j =>
    vec.getD (List.indexOf (min i.1 j.1, max i.1 j.1) (upperVecInds k)) 0

/-- Block dimension k recovered from a vectorized length L = k(k+1)/2: the
largest k with k(k+1)/2 ≤ L, which is exactly floor((sqrt(8L+1) − 1) / 2).
The source computes round(sqrt(2·L + 0.25) − 0.5) in floating point; on the
documented invariant (L triangular) both give exactly k. -/
def ktri (L : ℕ) : ℕ :=
  ((List.range (L + 1)).filter fun k => k * (k + 1) / 2 ≤ L).length - 1

/-- Modelled from the spec (split_vector of the absent utils.py):
consecutive ranges of length k(k+1)/2, one per block dimension k. -/
def split_vector (dims : List ℕ) : List (ℕ × ℕ) :=
  (dims.foldl
    (fun (acc : List (ℕ × ℕ) × ℕ) k =>
      (acc.1 ++ [(acc.2, acc.2 + k * (k + 1) / 2)], acc.2 + k * (k + 1) / 2))
    ([], 0)).1

/-- A symmetric block: its dimension and its matrix. -/
abbrev Block : Type := (k : ℕ) × Matrix (Fin k) (Fin k) ℚ

/-- A decomposition triple (S, U, diag) of one block, as stored in a
successful result. -/
abbrev Triple : Type :=
  (k : ℕ) × (Matrix (Fin k) (Fin k) ℚ × Matrix (Fin k) (Fin k) ℚ × (Fin k → ℚ))

/-- Modelled from the spec (S_from_y of the absent utils.py): evaluate the
affine family at y — form w = x0 + space·y and reshape each split range of w
into a symmetric block matrix. -/
def S_from_y (y x0 : List ℚ) (space : List (List ℚ)) (splits : List (ℕ × ℕ)) :
    List Block :=
  let w := vecAddL x0 (matVecL space y)
  splits.map fun s =>
    ⟨ktri (s.2 - s.1), symFromUpperVec (ktri (s.2 - s.1)) ((w.drop s.1).take (s.2 - s.1))⟩

/-- Attempt the congruence decomposition of every block; all blocks must
succeed.  Each resulting triple stores (S, U, diag) for its block. -/
def decomposeBlocks : List Block → Option (List Triple)
  | [] => some []
  | b :: bs =>
    match congruence b.2 with
    | some (U, d) => (decomposeBlocks bs).map fun ts => ⟨b.1, (b.2, U, d)⟩ :: ts
    | none => none

/-- The certificate property of one stored triple (S, U, diag) against the
block it came from: S is that block's matrix, U is upper triangular, diag is
entrywise non-negative and Uᵀ · diag(d) · U = S exactly. -/
def tripleMatches (b : Block) (t : Triple) : Prop :=
  (⟨t.1, t.2.1⟩ : Block) = b ∧ IsUpperTri t.2.2.1 ∧ (∀ i, 0 ≤ t.2.2.2 i) ∧
    (t.2.2.1)ᵀ * Matrix.diagonal t.2.2.2 * t.2.2.1 = t.2.1

/-- Modelled from the spec (rationalize_and_decompose of the absent
rationalize.py): the nearby-rational candidate search is kept abstract as the
list of rational candidate vectors it produces; each candidate is evaluated
through the affine family and the first one whose blocks all admit an exact
congruence decomposition is returned together with its triples. -/
def rationalize_and_decompose (cands : List (List ℚ)) (x0 : List ℚ)
    (space : List (List ℚ)) (splits : List (ℕ × ℕ)) :
    Option (List ℚ × List Triple) :=
  match cands with
  | [] => none
  | y :: rest =>
    match decomposeBlocks (S_from_y y x0 space splits) with
    | some ts => some (y, ts)
    | none => rationalize_and_decompose rest x0 space splits

/-! ### Top-level solve() control flow (solver.py lines 820–939)

The numeric strategies run against the external PICOS backend; their outcomes
enter the embedding as parameters (Option of a rational solution), exactly the
values the Python locals named ra take. -/

/-- Error taxonomy of the absent ipm.py, as far as solve() can surface it. -/
inductive SDPErr : Type
  | rationalizeError
  | infeasibleError
deriving DecidableEq, Repr

/-- State of an SDPProblem as far as solve() touches it: the (masked view of
the) affine family, the keys, the stored solution attributes and the numeric
history.  spaceCols records space.shape[1] (the dof), which a row-major list
matrix with zero rows would lose. -/
structure SolveState where
  x0 : List ℚ
  space : List (List ℚ)
  spaceCols : ℕ
  splits : List (ℕ × ℕ)
  keys : List String
  y : Option (List ℚ)
  S : Option (List (String × Block))
  ys : List (List ℚ)
deriving Repr

/-- Result object of solve() (class SDPResult): constructed with success=False
and all fields None, which a solution dictionary overwrites. -/
structure SDPResultM where
  y : Option (List ℚ)
  S : Option (List (String × Block))
  decompositions :
    Option (List (String × ((k : ℕ) × (Matrix (Fin k) (Fin k) ℚ × (Fin k → ℚ)))))
  success : Bool

/-- SDPProblem._solve_degenerated: when the degree of freedom is zero the
empty vector y is rationalized directly (x0 alone is the unique candidate);
no optimization package is involved. -/
def solve_degenerated (st : SolveState) : Option (List ℚ × List Triple) :=
  if st.spaceCols = 0 then rationalize_and_decompose [[]] st.x0 st.space st.splits
  else none

/-- SDPProblem.rationalize_combine, early-return part: with an empty numeric
history it returns None; otherwise it averages the history and rationalizes,
which the embedding keeps abstract as combineCore. -/
def rationalize_combine
    (combineCore : List (List ℚ) → Option (List ℚ × List Triple))
    (ys : List (List ℚ)) : Option (List ℚ × List Triple) :=
  if ys.length = 0 then none else combineCore ys

/-- SDPProblem._solve_wrapped, lines 875–895: take the selected strategy's
outcome; on failure try the convex combination of the numeric history; if that
fails and numeric candidates exist, either return the perturbed numeric
decomposition (allow_numer) or raise SDPRationalizeError; with no numeric
candidate at all, return None. -/
def solve_wrapped (strategyRa : Option (List ℚ × List Triple))
    (combineCore : List (List ℚ) → Option (List ℚ × List Triple))
    (ys : List (List ℚ)) (allowNumer : Bool)
    (numerRa : Option (List ℚ × List Triple)) :
    Except SDPErr (Option (List ℚ × List Triple)) :=
  match strategyRa with
  | some ra => .ok (some ra)
  | none =>
    match rationalize_combine combineCore ys with
    | some ra => .ok (some ra)
    | none =>
      if 0 < ys.length then
        if allowNumer then .ok numerRa else .error .rationalizeError
      else .ok none

/-- SDPProblem.solve, lines 897–939: dispatch to the degenerate path when
dof = 0, else to the wrapped numeric solve when the backend is available
(its outcome is the parameter wrapped), else to None; package the solution
dictionary into an SDPResult and register y and S on the problem. -/
def solve (st : SolveState) (hasPicos : Bool)
    (wrapped : Except SDPErr (Option (List ℚ × List Triple))) :
    Except SDPErr (SDPResultM × SolveState) :=
  let solution : Except SDPErr (Option (List ℚ × List Triple)) :=
    if st.spaceCols = 0 then .ok (solve_degenerated st)
    else if hasPicos then wrapped
    else .ok none
  match solution with
  | .error e => .error e
  | .ok none => .ok (⟨none, none, none, false⟩, st)
  | .ok (some (yv, ts)) =>
    let Sdict := st.keys.zip (ts.map fun t => (⟨t.1, t.2.1⟩ : Block))
    let Ddict := st.keys.zip (ts.map fun t =>
      (⟨t.1, (t.2.2.1, t.2.2.2)⟩ : (k : ℕ) × (Matrix (Fin k) (Fin k) ℚ × (Fin k → ℚ))))
    .ok (⟨some yv, some Sdict, some Ddict, true⟩,
      { st with y := some yv, S := some Sdict })

/-! ### Row-mask padding (SDPProblem.pad_masked_rows, lines 259–295) -/

/-- SDPProblem.pad_masked_rows for a non-empty mask: starting from the zero
(n+m)×(n+m) matrix, entry (not_masked[v1], not_masked[v2]) is set to
S[v1, v2], where not_masked is the increasing enumeration of the unmasked
indices.  The hypothesis records that the complement of the mask has exactly
n elements. -/
def pad_masked_rows {n m : ℕ} (S : Matrix (Fin n) (Fin n) ℚ)
    (mask : Finset (Fin (n + m))) (h : maskᶜ.card = n) :
    Matrix (Fin (n + m)) (Fin (n + m)) ℚ :=
  Matrix.of fun r1 r2 =>
    if h1 : r1 ∈ maskᶜ then
      if h2 : r2 ∈ maskᶜ then
        S ((maskᶜ.orderIsoOfFin h).symm ⟨r1, h1⟩)
          ((maskᶜ.orderIsoOfFin h).symm ⟨r2, h2⟩)
      else 0
    else 0

/-! ### Row masking (SDPProblem.set_masked_rows, lines 198–256) -/

/-- State of an SDPProblem as far as set_masked_rows touches it: the unmasked
originals (underscore-prefixed in the source), the masked view, the mask
dictionary, the free-symbol count and the numeric history. -/
structure MaskState where
  ux0 : List ℚ
  uspace : List (List ℚ)
  usplits : List (ℕ × ℕ)
  ufreeCount : ℕ
  x0 : List ℚ
  space : List (List ℚ)
  splits : List (ℕ × ℕ)
  freeCount : ℕ
  maskedRows : List (String × List ℕ)
  ys : List (List ℚ)
  keys : List String
deriving Repr

/-- SDPProblem._masked_dims: per-key block dimension after row-masking
(computed from the unmasked splits), optionally omitting zero dimensions. -/
def masked_dims (filterZero : Bool) (st : MaskState) : List (String × ℕ) :=
  (List.range st.keys.length).filterMap fun i =>
    let key := st.keys.getD i ""
    let split := st.usplits.getD i (0, 0)
    let mask := (st.maskedRows.lookup key).getD []
    let v := ktri (split.2 - split.1) - mask.length
    if filterZero && v == 0 then none else some (key, v)

/-- SDPProblem._not_none_keys: keys whose masked dimension is positive. -/
def not_none_keys (st : MaskState) : List String :=
  (masked_dims true st).map Prod.fst

/-- The vector coordinates (with their global offsets) that a requested mask
forces to zero: for every block, the upper-triangle positions whose row or
column index is masked. -/
def maskLines (masks : List (String × List ℕ)) (st : MaskState) : List ℕ :=
  ((not_none_keys st).zip st.splits).flatMap fun p =>
    let mask := (masks.lookup p.1).getD []
    if mask.isEmpty then []
    else
      ((upperVecInds (ktri (p.2.2 - p.2.1))).enum.filterMap fun q =>
        if q.2.1 ∈ mask ∨ q.2.2 ∈ mask then some (q.1 + p.2.1) else none)

/-- The success branch of set_masked_rows: substitute the particular solution
x1 and the reduced subspace space1 into the family, physically remove the
masked vector rows, record the mask and recompute the splits and the free
symbols. -/
def maskUpdate (masks : List (String × List ℕ)) (st1 : MaskState)
    (x1 : List ℚ) (space1 : List (List ℚ)) : MaskState :=
  let x0a := vecAddL st1.x0 (matVecL st1.space x1)
  let spacea := matMulL st1.space space1
  let notLines := (List.range spacea.length).filter fun i => i ∉ maskLines masks st1
  { st1 with
    x0 := selectRows notLines x0a, space := selectRows notLines spacea,
    maskedRows := masks,
    splits := split_vector
      ((masked_dims false { st1 with maskedRows := masks }).map Prod.snd),
    freeCount := (spacea.headD []).length }

/-- The non-empty-mask path of set_masked_rows: solve the
masked-entries-are-zero linear system (solve_undetermined_linear of the
absent utils.py, kept abstract as linSolve — none models the raised error,
whose partial mutations persist) and apply the update on success.  The Bool
is false exactly on the raising path. -/
def set_masked_rows_apply
    (linSolve : List (List ℚ) → List ℚ → Option (List ℚ × List (List ℚ)))
    (masks : List (String × List ℕ)) (st1 : MaskState) : Bool × MaskState :=
  match linSolve (selectRows (maskLines masks st1) st1.space)
      ((selectRows (maskLines masks st1) st1.x0).map fun q => -q) with
  | none => (false, st1)
  | some (x1, space1) => (true, maskUpdate masks st1 x1 space1)

/-- SDPProblem.set_masked_rows: restore the unmasked view and clear the
numeric history; with an all-empty mask stop there; otherwise run the
constrained reduction. -/
def set_masked_rows
    (linSolve : List (List ℚ) → List ℚ → Option (List ℚ × List (List ℚ)))
    (masks : List (String × List ℕ)) (st : MaskState) : Bool × MaskState :=
  let st1 := { st with
    x0 := st.ux0, space := st.uspace, splits := st.usplits,
    freeCount := st.ufreeCount, ys := [], maskedRows := [] }
  if masks.all (fun kv => kv.2.isEmpty) then (true, st1)
  else set_masked_rows_apply linSolve masks st1

/-! ### Numeric solve with early stop (lines 414–465) -/

/-- One invocation of the external backend under an iteration budget: it may
return a primal solution, break down numerically (ZeroDivisionError), or fail
in any other way. -/
inductive ExecOutcome (α : Type) : Type
  | success (sol : α)
  | zeroDiv
  | otherError

/-- SDPProblem._nsolve_with_early_stop: run the backend with max_iters; on a
ZeroDivisionError retry with the budget halved while the halved budget still
reaches min_iters; any other failure, or exhausting the budget, yields None —
no exception ever escapes (the Option return type has no error case). -/
def nsolve_with_early_stop {α : Type} (exec : ℕ → ExecOutcome α)
    (maxIters minIters : ℕ) : Option α :=
  match exec maxIters with
  | .success s => some s
  | .zeroDiv =>
    if h : minIters ≤ maxIters / 2 ∧ 1 < maxIters then
      nsolve_with_early_stop exec (maxIters / 2) minIters
    else none
  | .otherError => none
termination_by maxIters
decreasing_by exact Nat.div_lt_self (by omega) (by omega)

/-! ### Multi-objective candidate generation (lines 468–480, 521–587) -/

/-- Linear objectives the solver builds over a block variable. -/
inductive ObjExpr : Type
  | tr (key : String)
  | sumEntries (key : String)
deriving DecidableEq, Repr

/-- A direction ("max"/"min") together with an objective expression. -/
abbrev Objective : Type := String × ObjExpr

/-- SDPProblem._get_defaulted_objectives: maximize trace, minimize trace and
maximize the entry sum of the first non-empty block, in that order. -/
def get_defaulted_objectives (notNoneKeys : List String) : List Objective :=
  [("max", ObjExpr.tr (notNoneKeys.headD "")),
   ("min", ObjExpr.tr (notNoneKeys.headD "")),
   ("max", ObjExpr.sumEntries (notNoneKeys.headD ""))]

/-- SDPProblem._nsolve_with_obj, loop body: for each objective in order, set
it and solve; a successful numeric y is appended to the history and yielded,
and a None sentinel is yielded at the end of every loop iteration.  The first
component collects the yielded values, the second the final history. -/
def nsolve_with_obj_aux (solveObj : Objective → Option (List ℚ)) :
    List Objective → List (List ℚ) → List (Option (List ℚ)) × List (List ℚ)
  | [], ys => ([], ys)
  | o :: rest, ys =>
    match solveObj o with
    | some yv =>
      let r := nsolve_with_obj_aux solveObj rest (ys ++ [yv])
      (some yv :: none :: r.1, r.2)
    | none =>
      let r := nsolve_with_obj_aux solveObj rest ys
      (none :: r.1, r.2)

/-- SDPProblem._nsolve_with_obj: defaulting of the objective list, then the
generator loop. -/
def nsolve_with_obj (solveObj : Objective → Option (List ℚ))
    (objectives : Option (List Objective)) (notNoneKeys : List String)
    (ys : List (List ℚ)) : List (Option (List ℚ)) × List (List ℚ) :=
  nsolve_with_obj_aux solveObj
    (objectives.getD (get_defaulted_objectives notNoneKeys)) ys

/-! ### Partial deflation, coordinate-fixing step (lines 801–817) -/

/-- Python round(): round half to even. -/
def pythonRound (q : ℚ) : ℤ :=
  if q - ⌊q⌋ < 1 / 2 then ⌊q⌋
  else if 1 / 2 < q - ⌊q⌋ then ⌊q⌋ + 1
  else if Even ⌊q⌋ then ⌊q⌋ else ⌊q⌋ + 1

/-- The fixed value of the deflated coordinate, from the max- and min-solve
bounds.  The nearby-rational search (rationalize of the absent
rationalize.py) is kept abstract: ratReliable models
rationalize(·, reliable=True), ratRound models
rationalize(·, rounding=t, reliable=False). -/
def deflationFix (ratReliable : ℚ → ℚ) (ratRound : ℚ → ℚ → ℚ)
    (bmax bmin : ℚ) : ℚ :=
  -- the source locals: fix = (bmax + bmin) / 2, eps = (bmax - bmin) / 2
  if (bmax - bmin) / 2 ≤ 1 / 10 ^ 7 then
    if 1 / 10 ^ 7 < |(bmax + bmin) / 2| then ratReliable ((bmax + bmin) / 2)
    else 0
  else if (pythonRound ((bmax + bmin) / 2) : ℚ) < bmax
      ∧ bmin < (pythonRound ((bmax + bmin) / 2) : ℚ) then
    (pythonRound ((bmax + bmin) / 2) : ℚ)
  else ratRound ((bmax + bmin) / 2) ((bmax - bmin) / 2 * (8 / 10))

/-- One partial-deflation step after both bound solves succeeded and no
rational solution was found: append the equality constraint y[i] == fix to
the numeric program and advance to the next coordinate.  bmax and bmin are
the numeric values _ys[-2][i] (max-solve) and _ys[-1][i] (min-solve). -/
def deflationStep (ratReliable : ℚ → ℚ) (ratRound : ℚ → ℚ → ℚ)
    (bmax bmin : ℚ) (cs : List (ℕ × ℚ)) (i : ℕ) : List (ℕ × ℚ) × ℕ :=
  (cs ++ [(i, deflationFix ratReliable ratRound bmax bmin)], i + 1)

/-! ### Scoped constraint handling (lines 696–718, 721–754, 768–780)

The backend's constraint list is embedded as a plain list; a strategy body is
a state transformer that may also raise (the Except component), returning the
constraint list it leaves behind.  The source wrappers are @contextmanager
generators without try/finally, so the cleanup after the yield runs only on
normal exits. -/

/-- The cleanup loop for i in range(len(cs)−1, n−1, −1): remove_constraint(i),
which strips everything after the first n constraints, last first. -/
def removeDownTo {α : Type} (cs : List α) (n : ℕ) : List α := cs.take n

/-- restore_constraints of _solve_trivial: record the constraint count, add
the aligned extra constraints, run the body, and on a normal exit remove back
down to the recorded count; an exception propagates before the cleanup. -/
def restoreConstraintsTrivial {α β ε : Type} (alignedExtra : List α)
    (body : List α → Except ε β × List α) (cs : List α) :
    Except ε β × List α :=
  let r := body (cs ++ alignedExtra)
  match r.1 with
  | .ok a => (.ok a, removeDownTo r.2 cs.length)
  | .error e => (.error e, r.2)

/-- restore_constraints of _solve_partial_deflation: record the constraint
count, run the body (which adds the coordinate fixes), and on a normal exit
remove back down to the recorded count. -/
def restoreConstraintsDeflation {α β ε : Type}
    (body : List α → Except ε β × List α) (cs : List α) :
    Except ε β × List α :=
  let r := body cs
  match r.1 with
  | .ok a => (.ok a, removeDownTo r.2 cs.length)
  | .error e => (.error e, r.2)

/-- The removal loop of _solve_relax before the yield: drop the first
constraint recognized as the leading block's PSD constraint (nothing is
removed when none matches). -/
def removeFirstLMI {α : Type} (isObjLMI : α → Bool) (cs : List α) : List α :=
  cs.eraseIdx (cs.findIdx isObjLMI)

/-- restore_constraints of _solve_relax: remove the obj ≫ 0 constraint, add
the two relaxation constraints, run the body, and on a normal exit remove the
last two constraints (the original PSD constraint is not re-added). -/
def restoreConstraintsRelax {α β ε : Type} (isObjLMI : α → Bool) (c1 c2 : α)
    (body : List α → Except ε β × List α) (cs : List α) :
    Except ε β × List α :=
  let r := body (removeFirstLMI isObjLMI cs ++ [c1, c2])
  match r.1 with
  | .ok a => (.ok a, r.2.dropLast.dropLast)
  | .error e => (.error e, r.2)

/-! ### Sum and quadratic-form lemmas -/

theorem sum_ite_single {n : ℕ} (i : Fin n) (t : ℚ) (g : Fin n → ℚ) :
    (∑ k, (if k = i then t else 0) * g k) = t * g i := by
  have h : ∀ k, (if k = i then t else 0) * g k = if k = i then t * g k else 0 := by
    intro k; by_cases hk : k = i <;> simp [hk]
  rw [Finset.sum_congr rfl fun k _ => h k, Finset.sum_ite_eq']
  simp

theorem sum_ite_pair {n : ℕ} {i j : Fin n} (hij : i ≠ j) (t s : ℚ)
    (g : Fin n → ℚ) :
    (∑ k, (if k = i then t else if k = j then s else 0) * g k)
      = t * g i + s * g j := by
  have h : ∀ k, (if k = i then t else if k = j then s else 0) * g k
      = (if k = i then t * g k else 0) + (if k = j then s * g k else 0) := by
    intro k
    rcases eq_or_ne k i with h1 | h1
    · subst h1
      rw [if_pos rfl, if_pos rfl, if_neg hij, add_zero]
    · rcases eq_or_ne k j with h2 | h2
      · subst h2
        rw [if_neg h1, if_pos rfl, if_neg h1, if_pos rfl, zero_add]
      · rw [if_neg h1, if_neg h2, if_neg h1, if_neg h2, zero_mul, add_zero]
  rw [Finset.sum_congr rfl fun k _ => h k, Finset.sum_add_distrib,
    Finset.sum_ite_eq', Finset.sum_ite_eq']
  simp

theorem quadForm_rows {n : ℕ} (S : Matrix (Fin n) (Fin n) ℚ) (v : Fin n → ℚ) :
    quadForm S v = ∑ k, v k * (∑ l, S k l * v l) := by
  unfold quadForm
  refine Finset.sum_congr rfl fun k _ => ?_
  rw [Finset.mul_sum]
  exact Finset.sum_congr rfl fun l _ => by ring

theorem quadForm_single {n : ℕ} (S : Matrix (Fin n) (Fin n) ℚ) (i : Fin n)
    (t : ℚ) :
    quadForm S (fun k => if k = i then t else 0) = t * (t * S i i) := by
  rw [quadForm_rows, sum_ite_single]
  congr 1
  have : ∀ l, S i l * (if l = i then t else 0) = (if l = i then t else 0) * S i l :=
    fun l => by ring
  rw [Finset.sum_congr rfl fun l _ => this l, sum_ite_single]

theorem quadForm_pair {n : ℕ} (S : Matrix (Fin n) (Fin n) ℚ) {i j : Fin n}
    (hij : i ≠ j) (t s : ℚ) :
    quadForm S (fun k => if k = i then t else if k = j then s else 0)
      = t * (t * S i i + s * S i j) + s * (t * S j i + s * S j j) := by
  rw [quadForm_rows, sum_ite_pair hij]
  have hcomm : ∀ (r : Fin n) (l : Fin n),
      S r l * (if l = i then t else if l = j then s else 0)
        = (if l = i then t else if l = j then s else 0) * S r l :=
    fun r l => by ring
  congr 1
  · congr 1
    rw [Finset.sum_congr rfl fun l _ => hcomm i l, sum_ite_pair hij]
  · congr 1
    rw [Finset.sum_congr rfl fun l _ => hcomm j l, sum_ite_pair hij]

theorem psd_diag_nonneg {n : ℕ} {S : Matrix (Fin n) (Fin n) ℚ}
    (h : IsPSD S) (i : Fin n) : 0 ≤ S i i := by
  have := h (fun k => if k = i then 1 else 0)
  rw [quadForm_single] at this
  linarith

theorem psd_zero_diag_row {n : ℕ} {S : Matrix (Fin n) (Fin n) ℚ}
    (hsym : S.IsSymm) (h : IsPSD S) {i : Fin n} (hii : S i i = 0)
    (j : Fin n) : S i j = 0 := by
  by_cases hij : i = j
  · subst hij; exact hii
  · by_contra hb
    have hji : S j i = S i j := hsym.apply i j
    have key := fun t : ℚ => h (fun k => if k = i then t else if k = j then 1 else 0)
    have key2 : ∀ t : ℚ, 0 ≤ 2 * t * S i j + S j j := by
      intro t
      have := key t
      rw [quadForm_pair S hij] at this
      rw [hii, hji] at this
      linarith
    have h2 : (2 : ℚ) * S i j ≠ 0 := mul_ne_zero two_ne_zero hb
    have hval : 2 * (-(S j j + 1) / (2 * S i j)) * S i j = -(S j j + 1) := by
      field_simp
      ring
    have := key2 (-(S j j + 1) / (2 * S i j))
    rw [hval] at this
    linarith

theorem augment_zz {n : ℕ} (v : Fin n → ℚ) (U : Matrix (Fin n) (Fin n) ℚ) :
    augment v U 0 0 = 1 := rfl

theorem augment_zs {n : ℕ} (v : Fin n → ℚ) (U : Matrix (Fin n) (Fin n) ℚ)
    (j : Fin n) : augment v U 0 j.succ = v j := by
  simp [augment]

theorem augment_sz {n : ℕ} (v : Fin n → ℚ) (U : Matrix (Fin n) (Fin n) ℚ)
    (i : Fin n) : augment v U i.succ 0 = 0 := by
  simp [augment]

theorem augment_ss {n : ℕ} (v : Fin n → ℚ) (U : Matrix (Fin n) (Fin n) ℚ)
    (i j : Fin n) : augment v U i.succ j.succ = U i j := by
  simp [augment]

theorem tdiag_mul_apply {n : ℕ} (A : Matrix (Fin n) (Fin n) ℚ) (d : Fin n → ℚ)
    (i j : Fin n) :
    (Aᵀ * Matrix.diagonal d * A) i j = ∑ k, A k i * d k * A k j := by
  rw [Matrix.mul_apply]
  refine Finset.sum_congr rfl fun k _ => ?_
  rw [Matrix.mul_diagonal, Matrix.transpose_apply]

theorem schurComp_isSymm {n : ℕ} {S : Matrix (Fin (n + 1)) (Fin (n + 1)) ℚ}
    (hsym : S.IsSymm) : (schurComp S).IsSymm := by
  ext i j
  simp only [Matrix.transpose_apply, schurComp, Matrix.of_apply]
  rw [hsym.apply i.succ j.succ]
  ring

theorem submatrix_succ_isSymm {n : ℕ} {S : Matrix (Fin (n + 1)) (Fin (n + 1)) ℚ}
    (hsym : S.IsSymm) : (S.submatrix Fin.succ Fin.succ).IsSymm := by
  ext i j
  simp only [Matrix.transpose_apply, Matrix.submatrix_apply]
  exact hsym.apply i.succ j.succ

theorem quadForm_cons {n : ℕ} (S : Matrix (Fin (n + 1)) (Fin (n + 1)) ℚ)
    (hsym : S.IsSymm) (ha : S 0 0 ≠ 0) (w0 : ℚ) (z : Fin n → ℚ) :
    quadForm S (Fin.cons w0 z)
      = S 0 0 * (w0 + ∑ j, pivRow S j * z j) ^ 2 + quadForm (schurComp S) z := by
  have hb : ∀ j : Fin n, S 0 j.succ = S 0 0 * pivRow S j := by
    intro j; unfold pivRow; field_simp
  have hc : ∀ i : Fin n, S i.succ 0 = S 0 0 * pivRow S i := by
    intro i; rw [hsym.apply 0 i.succ]; exact hb i
  have hS : ∀ i j : Fin n,
      S i.succ j.succ = schurComp S i j + S 0 0 * pivRow S i * pivRow S j := by
    intro i j; simp [schurComp]
  unfold quadForm
  simp only [Fin.sum_univ_succ, Fin.cons_zero, Fin.cons_succ, hb, hc, hS]
  have e1 : (∑ j, w0 * (S 0 0 * pivRow S j) * z j)
      = S 0 0 * w0 * ∑ j, pivRow S j * z j := by
    rw [Finset.mul_sum]
    exact Finset.sum_congr rfl fun j _ => by ring
  have e2a : ∀ i : Fin n,
      (∑ j, z i * (schurComp S i j + S 0 0 * pivRow S i * pivRow S j) * z j)
        = (∑ j, z i * schurComp S i j * z j)
          + (S 0 0 * (pivRow S i * z i)) * ∑ j, pivRow S j * z j := by
    intro i
    rw [Finset.mul_sum, ← Finset.sum_add_distrib]
    exact Finset.sum_congr rfl fun j _ => by ring
  have e2 : (∑ i, (z i * (S 0 0 * pivRow S i) * w0
        + ∑ j, z i * (schurComp S i j + S 0 0 * pivRow S i * pivRow S j) * z j))
      = S 0 0 * w0 * (∑ j, pivRow S j * z j)
        + ((∑ i, ∑ j, z i * schurComp S i j * z j)
          + S 0 0 * (∑ j, pivRow S j * z j) * (∑ j, pivRow S j * z j)) := by
    rw [Finset.sum_congr rfl fun i _ => by rw [e2a i]]
    rw [Finset.sum_add_distrib, Finset.sum_add_distrib]
    congr 1
    · rw [Finset.mul_sum]
      exact Finset.sum_congr rfl fun i _ => by ring
    · congr 1
      rw [← Finset.sum_mul, mul_comm (S 0 0) (∑ j, pivRow S j * z j),
        mul_assoc, ← Finset.mul_sum]
      rw [mul_comm (∑ j, pivRow S j * z j) (S 0 0 * ∑ i, pivRow S i * z i),
        mul_assoc]
  rw [e1, e2]
  ring

theorem quadForm_cons_zero {n : ℕ} (S : Matrix (Fin (n + 1)) (Fin (n + 1)) ℚ)
    (hsym : S.IsSymm) (h00 : S 0 0 = 0) (hrow : ∀ j : Fin n, S 0 j.succ = 0)
    (w0 : ℚ) (z : Fin n → ℚ) :
    quadForm S (Fin.cons w0 z)
      = quadForm (S.submatrix Fin.succ Fin.succ) z := by
  have hc : ∀ i : Fin n, S i.succ 0 = 0 := by
    intro i; rw [hsym.apply 0 i.succ]; exact hrow i
  unfold quadForm
  simp [Fin.sum_univ_succ, Fin.cons_zero, Fin.cons_succ, h00, hrow, hc,
    Matrix.submatrix_apply]

theorem psd_schurComp {n : ℕ} {S : Matrix (Fin (n + 1)) (Fin (n + 1)) ℚ}
    (hsym : S.IsSymm) (ha : S 0 0 ≠ 0) (h : IsPSD S) : IsPSD (schurComp S) := by
  intro z
  have key := h (Fin.cons (-(∑ j, pivRow S j * z j)) z)
  rw [quadForm_cons S hsym ha] at key
  simpa using key

theorem psd_of_schurComp {n : ℕ} {S : Matrix (Fin (n + 1)) (Fin (n + 1)) ℚ}
    (hsym : S.IsSymm) (ha : 0 < S 0 0) (h : IsPSD (schurComp S)) : IsPSD S := by
  intro w
  rw [show quadForm S w = quadForm S (Fin.cons (w 0) (Fin.tail w)) by
    rw [Fin.cons_self_tail]]
  rw [quadForm_cons S hsym (ne_of_gt ha)]
  have h1 := h (Fin.tail w)
  have h2 : 0 ≤ S 0 0 * (w 0 + ∑ j, pivRow S j * Fin.tail w j) ^ 2 :=
    mul_nonneg ha.le (sq_nonneg _)
  linarith

theorem psd_submatrix {n : ℕ} {S : Matrix (Fin (n + 1)) (Fin (n + 1)) ℚ}
    (hsym : S.IsSymm) (h00 : S 0 0 = 0) (hrow : ∀ j : Fin n, S 0 j.succ = 0)
    (h : IsPSD S) : IsPSD (S.submatrix Fin.succ Fin.succ) := by
  intro z
  have key := h (Fin.cons 0 z)
  rwa [quadForm_cons_zero S hsym h00 hrow] at key

theorem psd_of_submatrix {n : ℕ} {S : Matrix (Fin (n + 1)) (Fin (n + 1)) ℚ}
    (hsym : S.IsSymm) (h00 : S 0 0 = 0) (hrow : ∀ j : Fin n, S 0 j.succ = 0)
    (h : IsPSD (S.submatrix Fin.succ Fin.succ)) : IsPSD S := by
  intro w
  rw [show quadForm S w = quadForm S (Fin.cons (w 0) (Fin.tail w)) by
    rw [Fin.cons_self_tail]]
  rw [quadForm_cons_zero S hsym h00 hrow]
  exact h (Fin.tail w)

theorem congruence_succ_eq {n : ℕ} (S : Matrix (Fin (n + 1)) (Fin (n + 1)) ℚ) :
    congruence S =
      if 0 < S 0 0 then augStep (S 0 0) (pivRow S) (congruence (schurComp S))
      else if S 0 0 = 0 then
        if ∀ j : Fin n, S 0 j.succ = 0 then
          augStep 0 (fun _ => 0) (congruence (S.submatrix Fin.succ Fin.succ))
        else none
      else none := rfl

theorem congruence_correct {n : ℕ} :
    ∀ (S U : Matrix (Fin n) (Fin n) ℚ) (d : Fin n → ℚ), S.IsSymm →
      congruence S = some (U, d) →
      IsUpperTri U ∧ (∀ i, 0 ≤ d i) ∧ Uᵀ * Matrix.diagonal d * U = S := by
  induction n with
  | zero =>
    intro S U d _ h
    refine ⟨fun i => i.elim0, fun i => i.elim0, ?_⟩
    ext i j
    exact i.elim0
  | succ n ih =>
    intro S U d hsym h
    rw [congruence_succ_eq] at h
    by_cases hpos : 0 < S 0 0
    · rw [if_pos hpos] at h
      cases hrec : congruence (schurComp S) with
      | none => rw [hrec] at h; exact absurd h (by simp [augStep])
      | some p =>
        obtain ⟨U1, d1⟩ := p
        rw [hrec] at h
        simp only [augStep, Option.some.injEq, Prod.mk.injEq] at h
        obtain ⟨hU, hd⟩ := h
        subst hU hd
        obtain ⟨ih1, ih2, ih3⟩ := ih (schurComp S) U1 d1 (schurComp_isSymm hsym) hrec
        have hb : ∀ j : Fin n, S 0 j.succ = S 0 0 * pivRow S j := by
          intro j; unfold pivRow; field_simp
        have hc : ∀ i : Fin n, S i.succ 0 = S 0 0 * pivRow S i := by
          intro i; rw [hsym.apply 0 i.succ]; exact hb i
        refine ⟨?_, ?_, ?_⟩
        · intro i j
          refine Fin.cases ?_ (fun i1 => ?_) i
          · intro hij
            exact absurd hij (by simp)
          · refine Fin.cases ?_ (fun j1 => ?_) j
            · intro _
              exact augment_sz _ _ _
            · intro hlt
              rw [augment_ss]
              refine ih1 i1 j1 ?_
              simp only [Fin.val_succ] at hlt
              omega
        · intro i
          refine Fin.cases ?_ (fun i1 => ?_) i
          · simpa [Fin.cons_zero] using hpos.le
          · simpa [Fin.cons_succ] using ih2 i1
        · ext i j
          rw [tdiag_mul_apply, Fin.sum_univ_succ]
          refine Fin.cases ?_ (fun i1 => ?_) i
          · refine Fin.cases ?_ (fun j1 => ?_) j
            · simp [augment_zz, augment_sz, Fin.cons_zero]
            · simp only [augment_zz, augment_zs, augment_sz, Fin.cons_zero,
                Fin.cons_succ, zero_mul, mul_zero, Finset.sum_const_zero, add_zero]
              rw [hb j1]; ring
          · refine Fin.cases ?_ (fun j1 => ?_) j
            · simp only [augment_zz, augment_zs, augment_sz, Fin.cons_zero,
                Fin.cons_succ, zero_mul, mul_zero, Finset.sum_const_zero, add_zero]
              rw [hc i1]; ring
            · simp only [augment_zs, augment_ss, Fin.cons_zero, Fin.cons_succ]
              have hsum : (∑ k, U1 k i1 * d1 k * U1 k j1)
                  = (U1ᵀ * Matrix.diagonal d1 * U1) i1 j1 :=
                (tdiag_mul_apply U1 d1 i1 j1).symm
              rw [hsum, ih3]
              simp only [schurComp, Matrix.of_apply]
              ring
    · by_cases h0 : S 0 0 = 0
      · by_cases hrow : ∀ j : Fin n, S 0 j.succ = 0
        · rw [if_neg hpos, if_pos h0, if_pos hrow] at h
          cases hrec : congruence (S.submatrix Fin.succ Fin.succ) with
          | none => rw [hrec] at h; exact absurd h (by simp [augStep])
          | some p =>
            obtain ⟨U1, d1⟩ := p
            rw [hrec] at h
            simp only [augStep, Option.some.injEq, Prod.mk.injEq] at h
            obtain ⟨hU, hd⟩ := h
            subst hU hd
            obtain ⟨ih1, ih2, ih3⟩ :=
              ih (S.submatrix Fin.succ Fin.succ) U1 d1 (submatrix_succ_isSymm hsym) hrec
            have hc : ∀ i : Fin n, S i.succ 0 = 0 := by
              intro i; rw [hsym.apply 0 i.succ]; exact hrow i
            refine ⟨?_, ?_, ?_⟩
            · intro i j
              refine Fin.cases ?_ (fun i1 => ?_) i
              · intro hij
                exact absurd hij (by simp)
              · refine Fin.cases ?_ (fun j1 => ?_) j
                · intro _
                  exact augment_sz _ _ _
                · intro hlt
                  rw [augment_ss]
                  refine ih1 i1 j1 ?_
                  simp only [Fin.val_succ] at hlt
                  omega
            · intro i
              refine Fin.cases ?_ (fun i1 => ?_) i
              · simp [Fin.cons_zero]
              · simpa [Fin.cons_succ] using ih2 i1
            · ext i j
              rw [tdiag_mul_apply, Fin.sum_univ_succ]
              refine Fin.cases ?_ (fun i1 => ?_) i
              · refine Fin.cases ?_ (fun j1 => ?_) j
                · simp only [augment_zz, augment_sz, Fin.cons_zero, zero_mul,
                    mul_zero, one_mul, mul_one, Finset.sum_const_zero, add_zero]
                  exact h0.symm
                · simp only [augment_zz, augment_zs, augment_sz, Fin.cons_zero,
                    Fin.cons_succ, zero_mul, mul_zero, mul_one, one_mul,
                    Finset.sum_const_zero, add_zero]
                  exact (hrow j1).symm
              · refine Fin.cases ?_ (fun j1 => ?_) j
                · simp only [augment_zz, augment_zs, augment_sz, Fin.cons_zero,
                    Fin.cons_succ, zero_mul, mul_zero, mul_one, one_mul,
                    Finset.sum_const_zero, add_zero]
                  exact (hc i1).symm
                · simp only [augment_zs, augment_ss, Fin.cons_zero, Fin.cons_succ]
                  have hsum : (∑ k, U1 k i1 * d1 k * U1 k j1)
                      = (U1ᵀ * Matrix.diagonal d1 * U1) i1 j1 :=
                    (tdiag_mul_apply U1 d1 i1 j1).symm
                  rw [hsum, ih3]
                  simp [Matrix.submatrix_apply]
        · rw [if_neg hpos, if_pos h0, if_neg hrow] at h
          exact absurd h (by simp)
      · rw [if_neg hpos, if_neg h0] at h
        exact absurd h (by simp)

theorem augStep_isSome {n : ℕ} (a : ℚ) (v : Fin n → ℚ)
    (r : Option (Matrix (Fin n) (Fin n) ℚ × (Fin n → ℚ))) :
    (augStep a v r).isSome = r.isSome := by
  cases r with
  | none => rfl
  | some p => obtain ⟨U1, d1⟩ := p; rfl

theorem congruence_isSome_iff {n : ℕ} :
    ∀ S : Matrix (Fin n) (Fin n) ℚ, S.IsSymm →
      ((congruence S).isSome = true ↔ IsPSD S) := by
  induction n with
  | zero =>
    intro S _
    constructor
    · intro _ v
      unfold quadForm
      simp
    · intro _
      rfl
  | succ n ih =>
    intro S hsym
    rw [congruence_succ_eq]
    by_cases hpos : 0 < S 0 0
    · rw [if_pos hpos, augStep_isSome,
        ih (schurComp S) (schurComp_isSymm hsym)]
      exact ⟨psd_of_schurComp hsym hpos, psd_schurComp hsym (ne_of_gt hpos)⟩
    · by_cases h0 : S 0 0 = 0
      · by_cases hrow : ∀ j : Fin n, S 0 j.succ = 0
        · rw [if_neg hpos, if_pos h0, if_pos hrow, augStep_isSome,
            ih (S.submatrix Fin.succ Fin.succ) (submatrix_succ_isSymm hsym)]
          exact ⟨psd_of_submatrix hsym h0 hrow, psd_submatrix hsym h0 hrow⟩
        · rw [if_neg hpos, if_pos h0, if_neg hrow]
          simp only [Option.isSome_none, Bool.false_eq_true, false_iff]
          intro hP
          push_neg at hrow
          obtain ⟨j, hj⟩ := hrow
          exact hj (psd_zero_diag_row hsym hP h0 j.succ)
      · rw [if_neg hpos, if_neg h0]
        simp only [Option.isSome_none, Bool.false_eq_true, false_iff]
        intro hP
        have hneg : S 0 0 < 0 := lt_of_le_of_ne (not_lt.mp hpos) h0
        exact absurd (psd_diag_nonneg hP 0) (not_le.mpr hneg)

theorem symFromUpperVec_isSymm (k : ℕ) (vec : List ℚ) :
    (symFromUpperVec k vec).IsSymm := by
  ext i j
  simp only [Matrix.transpose_apply, symFromUpperVec, Matrix.of_apply]
  rw [min_comm j.1 i.1, max_comm j.1 i.1]

theorem S_from_y_isSymm (y x0 : List ℚ) (space : List (List ℚ))
    (splits : List (ℕ × ℕ)) :
    ∀ b ∈ S_from_y y x0 space splits, b.2.IsSymm := by
  intro b hb
  unfold S_from_y at hb
  simp only [List.mem_map] at hb
  obtain ⟨s, _, hs⟩ := hb
  rw [← hs]
  exact symFromUpperVec_isSymm _ _

theorem decomposeBlocks_sound :
    ∀ (bs : List Block) (ts : List Triple), (∀ b ∈ bs, b.2.IsSymm) →
      decomposeBlocks bs = some ts → List.Forall₂ tripleMatches bs ts := by
  intro bs
  induction bs with
  | nil =>
    intro ts _ h
    simp only [decomposeBlocks, Option.some.injEq] at h
    rw [← h]
    exact List.Forall₂.nil
  | cons b bs ihb =>
    intro ts hsym h
    unfold decomposeBlocks at h
    cases hcg : congruence b.2 with
    | none => rw [hcg] at h; exact absurd h (by simp)
    | some p =>
      obtain ⟨U, d⟩ := p
      rw [hcg] at h
      cases hrest : decomposeBlocks bs with
      | none => rw [hrest] at h; exact absurd h (by simp)
      | some ts1 =>
        rw [hrest] at h
        simp at h
        rw [← h]
        refine List.Forall₂.cons ?_ (ihb ts1 (fun x hx => hsym x (by simp [hx])) hrest)
        obtain ⟨h1, h2, h3⟩ :=
          congruence_correct b.2 U d (hsym b (by simp)) hcg
        exact ⟨rfl, h1, h2, h3⟩

theorem decomposeBlocks_isSome_iff :
    ∀ bs : List Block, (∀ b ∈ bs, b.2.IsSymm) →
      ((decomposeBlocks bs).isSome = true ↔ ∀ b ∈ bs, IsPSD b.2) := by
  intro bs
  induction bs with
  | nil =>
    intro _
    simp [decomposeBlocks]
  | cons b bs ihb =>
    intro hsym
    unfold decomposeBlocks
    cases hcg : congruence b.2 with
    | none =>
      simp only [Option.isSome_none, Bool.false_eq_true, false_iff]
      intro hall
      have : (congruence b.2).isSome = true :=
        (congruence_isSome_iff b.2 (hsym b (by simp))).mpr (hall b (by simp))
      rw [hcg] at this
      exact absurd this (by simp)
    | some p =>
      obtain ⟨U, d⟩ := p
      have hbpsd : IsPSD b.2 := by
        refine (congruence_isSome_iff b.2 (hsym b (by simp))).mp ?_
        rw [hcg]
        rfl
      have htail := ihb fun x hx => hsym x (by simp [hx])
      cases hrest : decomposeBlocks bs with
      | none =>
        rw [hrest] at htail
        simp only [Option.isSome_none, Bool.false_eq_true, false_iff] at htail
        have hnot : ¬∀ b1 ∈ b :: bs, IsPSD b1.2 := fun hall =>
          htail fun x hx => hall x (List.mem_cons_of_mem b hx)
        simpa using hnot
      | some ts1 =>
        rw [hrest] at htail
        simp only [Option.isSome_some, true_iff] at htail
        have hall : ∀ b1 ∈ b :: bs, IsPSD b1.2 := by
          intro x hx
          rcases List.mem_cons.mp hx with hx1 | hx2
          · rw [hx1]; exact hbpsd
          · exact htail x hx2
        simpa using hall

theorem rationalize_and_decompose_sound :
    ∀ (cands : List (List ℚ)) (x0 : List ℚ) (space : List (List ℚ))
      (splits : List (ℕ × ℕ)) (y : List ℚ) (ts : List Triple),
      rationalize_and_decompose cands x0 space splits = some (y, ts) →
      y ∈ cands ∧ decomposeBlocks (S_from_y y x0 space splits) = some ts := by
  intro cands
  induction cands with
  | nil =>
    intro x0 space splits y ts h
    exact absurd h (by simp [rationalize_and_decompose])
  | cons c rest ihc =>
    intro x0 space splits y ts h
    unfold rationalize_and_decompose at h
    cases hd : decomposeBlocks (S_from_y c x0 space splits) with
    | some ts1 =>
      rw [hd] at h
      simp only [Option.some.injEq, Prod.mk.injEq] at h
      obtain ⟨hy, hts⟩ := h
      subst hy
      subst hts
      exact ⟨by simp, hd⟩
    | none =>
      rw [hd] at h
      obtain ⟨hmem, hdec⟩ := ihc x0 space splits y ts h
      exact ⟨by simp [hmem], hdec⟩

/-- C1: for every successful solve result, each block's decomposition triple
(S, U, diag) satisfies S = Uᵀ · diag(d) · U exactly over ℚ, with U upper
triangular and every entry of diag non-negative, where S is the block's
symmetric matrix evaluated (through the affine family) at the returned
rational vector y. -/
theorem C1_decomposition_round_trip (cands : List (List ℚ)) (x0 : List ℚ)
    (space : List (List ℚ)) (splits : List (ℕ × ℕ)) (y : List ℚ)
    (ts : List Triple)
    (h : rationalize_and_decompose cands x0 space splits = some (y, ts)) :
    List.Forall₂ tripleMatches (S_from_y y x0 space splits) ts := by
  obtain ⟨_, hdec⟩ := rationalize_and_decompose_sound cands x0 space splits y ts h
  exact decomposeBlocks_sound _ ts (S_from_y_isSymm y x0 space splits) hdec

/-- Witness for C1 at a concrete instance: one 1×1 block with x0 = [2] and no
free parameters, candidate y = []. -/
theorem C1_decomposition_round_trip_witness :
    List.Forall₂ tripleMatches (S_from_y [] [2] [[]] [(0, 1)])
      [⟨1, (symFromUpperVec 1 [2],
        augment (pivRow (symFromUpperVec 1 [2])) 1,
        Fin.cons 2 (fun i => i.elim0))⟩] := by
  have hw : vecAddL [2] (matVecL [[]] []) = [2] := by
    simp [vecAddL, matVecL, dotL]
  have hSfy : S_from_y [] [2] [[]] [(0, 1)] = [⟨1, symFromUpperVec 1 [2]⟩] := by
    unfold S_from_y
    rw [hw]
    rfl
  have h00 : symFromUpperVec 1 [2] 0 0 = 2 := rfl
  have hcg : congruence (symFromUpperVec 1 [2])
      = some (augment (pivRow (symFromUpperVec 1 [2])) 1,
          Fin.cons 2 (fun i => i.elim0)) := by
    rw [congruence_succ_eq, h00, if_pos (by norm_num : (0:ℚ) < 2)]
    rfl
  have hdec : decomposeBlocks (S_from_y [] [2] [[]] [(0, 1)])
      = some [⟨1, (symFromUpperVec 1 [2],
          augment (pivRow (symFromUpperVec 1 [2])) 1,
          Fin.cons 2 (fun i => i.elim0))⟩] := by
    rw [hSfy]
    unfold decomposeBlocks
    rw [hcg]
    rfl
  exact C1_decomposition_round_trip [[]] [2] [[]] [(0, 1)] [] _
    (by unfold rationalize_and_decompose; rw [hdec])

theorem rationalize_and_decompose_single (y x0 : List ℚ) (space : List (List ℚ))
    (splits : List (ℕ × ℕ)) :
    rationalize_and_decompose [y] x0 space splits
      = (decomposeBlocks (S_from_y y x0 space splits)).map fun ts => (y, ts) := by
  unfold rationalize_and_decompose
  cases hd : decomposeBlocks (S_from_y y x0 space splits) with
  | none => simp [rationalize_and_decompose]
  | some ts => simp

theorem solve_dof_zero_none (st : SolveState) (hdof : st.spaceCols = 0)
    (hsd : solve_degenerated st = none) (hp : Bool)
    (w : Except SDPErr (Option (List ℚ × List Triple))) :
    solve st hp w = Except.ok (⟨none, none, none, false⟩, st) := by
  unfold solve
  rw [if_pos hdof, hsd]

theorem solve_dof_zero_some (st : SolveState) (hdof : st.spaceCols = 0)
    (yv : List ℚ) (ts : List Triple)
    (hsd : solve_degenerated st = some (yv, ts)) (hp : Bool)
    (w : Except SDPErr (Option (List ℚ × List Triple))) :
    solve st hp w = Except.ok
      (⟨some yv,
        some (st.keys.zip (ts.map fun t => (⟨t.1, t.2.1⟩ : Block))),
        some (st.keys.zip (ts.map fun t =>
          (⟨t.1, (t.2.2.1, t.2.2.2)⟩ :
            (k : ℕ) × (Matrix (Fin k) (Fin k) ℚ × (Fin k → ℚ))))),
        true⟩,
      { st with y := some yv, S := some (st.keys.zip (ts.map fun t => (⟨t.1, t.2.1⟩ : Block))) }) := by
  unfold solve
  rw [if_pos hdof, hsd]

/-- C3: when the degrees of freedom equal zero, solve() succeeds if and only
if every block of x0 is positive semidefinite; on success the returned
decomposition reconstructs exactly the blocks of x0 (the affine family at the
empty y); and the result does not depend on the numeric backend (no backend
call is made on this path). -/
theorem C3_degenerate_correctness (st : SolveState) (hdof : st.spaceCols = 0) :
    (∀ (b1 b2 : Bool) (w1 w2 : Except SDPErr (Option (List ℚ × List Triple))),
      solve st b1 w1 = solve st b2 w2)
    ∧ (∀ (hp : Bool) (w : Except SDPErr (Option (List ℚ × List Triple))),
        (∃ r st2, solve st hp w = Except.ok (r, st2) ∧ r.success = true)
          ↔ ∀ b ∈ S_from_y [] st.x0 st.space st.splits, IsPSD b.2)
    ∧ (∀ (yv : List ℚ) (ts : List Triple),
        solve_degenerated st = some (yv, ts) →
        List.Forall₂ tripleMatches (S_from_y [] st.x0 st.space st.splits) ts) := by
  have hsd : solve_degenerated st
      = (decomposeBlocks (S_from_y [] st.x0 st.space st.splits)).map
          fun ts => ([], ts) := by
    unfold solve_degenerated
    rw [if_pos hdof, rationalize_and_decompose_single]
  refine ⟨?_, ?_, ?_⟩
  · intro b1 b2 w1 w2
    cases hsdc : solve_degenerated st with
    | none => rw [solve_dof_zero_none st hdof hsdc, solve_dof_zero_none st hdof hsdc]
    | some p =>
      obtain ⟨yv, ts⟩ := p
      rw [solve_dof_zero_some st hdof yv ts hsdc,
        solve_dof_zero_some st hdof yv ts hsdc]
  · intro hp w
    constructor
    · rintro ⟨r, st2, hok, hsucc⟩
      cases hdb : decomposeBlocks (S_from_y [] st.x0 st.space st.splits) with
      | none =>
        have hsdn : solve_degenerated st = none := by rw [hsd, hdb]; rfl
        rw [solve_dof_zero_none st hdof hsdn] at hok
        have hr : (⟨none, none, none, false⟩ : SDPResultM) = r :=
          congrArg Prod.fst (Except.ok.inj hok)
        rw [← hr] at hsucc
        exact absurd hsucc (by simp)
      | some ts =>
        refine (decomposeBlocks_isSome_iff _
          (S_from_y_isSymm [] st.x0 st.space st.splits)).mp ?_
        rw [hdb]
        rfl
    · intro hall
      have hsome : (decomposeBlocks (S_from_y [] st.x0 st.space st.splits)).isSome
          = true :=
        (decomposeBlocks_isSome_iff _
          (S_from_y_isSymm [] st.x0 st.space st.splits)).mpr hall
      cases hdb : decomposeBlocks (S_from_y [] st.x0 st.space st.splits) with
      | none => rw [hdb] at hsome; exact absurd hsome (by simp)
      | some ts =>
        have hsds : solve_degenerated st = some ([], ts) := by rw [hsd, hdb]; rfl
        exact ⟨_, _, solve_dof_zero_some st hdof [] ts hsds hp w, rfl⟩
  · intro yv ts hts
    rw [hsd] at hts
    cases hdb : decomposeBlocks (S_from_y [] st.x0 st.space st.splits) with
    | none => rw [hdb] at hts; exact absurd hts (by simp)
    | some ts1 =>
      rw [hdb] at hts
      simp only [Option.map_some', Option.some.injEq, Prod.mk.injEq] at hts
      obtain ⟨_, hts1⟩ := hts
      rw [← hts1]
      exact decomposeBlocks_sound _ ts1
        (S_from_y_isSymm [] st.x0 st.space st.splits) hdb

/-- Witness for C3 at a concrete dof-0 instance: the backend-independence
conclusion instantiated at two different backends. -/
theorem C3_degenerate_correctness_witness :
    solve ⟨[1], [[]], 0, [(0, 1)], ["S_0"], none, none, []⟩ true (Except.ok none)
      = solve ⟨[1], [[]], 0, [(0, 1)], ["S_0"], none, none, []⟩ false
          (Except.error SDPErr.rationalizeError) :=
  (C3_degenerate_correctness ⟨[1], [[]], 0, [(0, 1)], ["S_0"], none, none, []⟩
    rfl).1 true false (Except.ok none) (Except.error SDPErr.rationalizeError)

/-- C2 counterexample: the claim says solve() returns success=False whenever
the strategy, the combine fallback and rationalization all fail; but when the
numeric history is non-empty and allow_numer is false, _solve_wrapped raises
SDPRationalizeError, which propagates out of solve(). -/
theorem C2_counterexample_raises :
    solve ⟨[1], [[1]], 1, [(0, 1)], ["S_0"], none, none, [[1]]⟩ true
        (solve_wrapped none (fun _ => none) [[1]] false none)
      = Except.error SDPErr.rationalizeError := rfl

/-- C2 (amended): when the search exhausts with no numeric candidate ever
recorded, _solve_wrapped returns None and solve() returns a result with
success=False, raising nothing; in particular, for the infeasible dof-0
affine family x0 = [-1] with one 1×1 block and zero-width space, solve()
returns success=False for every backend availability and strategy outcome.
When numeric candidates exist, rationalization failed and allow_numer is
false, solve() instead raises SDPRationalizeError (see the counterexample). -/
theorem C2_search_exhaustion_behavior :
    (∀ (combineCore : List (List ℚ) → Option (List ℚ × List Triple))
       (allowNumer : Bool) (numerRa : Option (List ℚ × List Triple)),
       solve_wrapped none combineCore [] allowNumer numerRa = Except.ok none)
    ∧ (∀ (st : SolveState) (hp : Bool)
         (combineCore : List (List ℚ) → Option (List ℚ × List Triple))
         (allowNumer : Bool) (numerRa : Option (List ℚ × List Triple)),
         st.spaceCols ≠ 0 →
         solve st hp (solve_wrapped none combineCore [] allowNumer numerRa)
           = Except.ok (⟨none, none, none, false⟩, st))
    ∧ (∀ (hp : Bool) (w : Except SDPErr (Option (List ℚ × List Triple))),
         solve ⟨[-1], [[]], 0, [(0, 1)], ["S_0"], none, none, []⟩ hp w
           = Except.ok (⟨none, none, none, false⟩,
               ⟨[-1], [[]], 0, [(0, 1)], ["S_0"], none, none, []⟩)) := by
  have hw0 : ∀ (combineCore : List (List ℚ) → Option (List ℚ × List Triple))
      (allowNumer : Bool) (numerRa : Option (List ℚ × List Triple)),
      solve_wrapped none combineCore [] allowNumer numerRa = Except.ok none := by
    intro combineCore allowNumer numerRa
    rfl
  refine ⟨hw0, ?_, ?_⟩
  · intro st hp combineCore allowNumer numerRa hdof
    unfold solve
    rw [hw0, if_neg hdof]
    cases hp <;> rfl
  · intro hp w
    have hvec : vecAddL [-1] (matVecL [[]] []) = [-1] := by
      simp [vecAddL, matVecL, dotL]
    have hSfy : S_from_y [] [-1] [[]] [(0, 1)] = [⟨1, symFromUpperVec 1 [-1]⟩] := by
      unfold S_from_y
      rw [hvec]
      rfl
    have h00 : symFromUpperVec 1 [-1] 0 0 = -1 := rfl
    have hcg : congruence (symFromUpperVec 1 [-1]) = none := by
      rw [congruence_succ_eq, h00, if_neg (by norm_num), if_neg (by norm_num)]
    have hdec : decomposeBlocks (S_from_y [] [-1] [[]] [(0, 1)]) = none := by
      rw [hSfy]
      unfold decomposeBlocks
      rw [hcg]
    have hsd : solve_degenerated
        ⟨[-1], [[]], 0, [(0, 1)], ["S_0"], none, none, []⟩ = none := by
      unfold solve_degenerated
      rw [if_pos rfl, rationalize_and_decompose_single, hdec]
      rfl
    exact solve_dof_zero_none _ rfl hsd hp w

/-- Witness for C2 (amended): a concrete exhausted search with empty history
returns the success=False result and raises nothing. -/
theorem C2_search_exhaustion_behavior_witness :
    solve ⟨[1], [[1]], 1, [(0, 1)], ["S_0"], none, none, []⟩ false
        (solve_wrapped none (fun _ => none) [] false none)
      = Except.ok (⟨none, none, none, false⟩,
          ⟨[1], [[1]], 1, [(0, 1)], ["S_0"], none, none, []⟩) :=
  C2_search_exhaustion_behavior.2.1
    ⟨[1], [[1]], 1, [(0, 1)], ["S_0"], none, none, []⟩ false
    (fun _ => none) false none (by decide)

/-- C10: when solve() does not find a solution the returned result has
success=False with y, S and decompositions all None and the stored problem
attributes are unchanged; y and S are assigned (as Some values matching the
result) only when a solution was found. -/
theorem C10_result_assignment :
    ∀ (st : SolveState) (hp : Bool)
      (w : Except SDPErr (Option (List ℚ × List Triple))) (r : SDPResultM)
      (st2 : SolveState),
      solve st hp w = Except.ok (r, st2) →
      (r.success = false →
        r.y = none ∧ r.S = none ∧ r.decompositions = none ∧ st2 = st)
      ∧ (r.success = true →
        r.y.isSome = true ∧ st2.y = r.y ∧ st2.S = r.S) := by
  intro st hp w r st2 h
  unfold solve at h
  rcases hscr : (if st.spaceCols = 0 then Except.ok (solve_degenerated st)
      else if hp = true then w
      else Except.ok none : Except SDPErr (Option (List ℚ × List Triple))) with e | os
  · rw [hscr] at h
    exact absurd h (by simp)
  · rw [hscr] at h
    cases os with
    | none =>
      have hpair : (⟨none, none, none, false⟩ : SDPResultM) = r ∧ st = st2 := by
        have := Except.ok.inj h
        exact ⟨congrArg Prod.fst this, congrArg Prod.snd this⟩
      obtain ⟨hr, hst⟩ := hpair
      constructor
      · intro _
        rw [← hr, ← hst]
        exact ⟨rfl, rfl, rfl, rfl⟩
      · intro hsucc
        rw [← hr] at hsucc
        exact absurd hsucc (by simp)
    | some p =>
      obtain ⟨yv, ts⟩ := p
      have hpair := Except.ok.inj h
      injection hpair with hr hst
      constructor
      · intro hsucc
        rw [← hr] at hsucc
        exact absurd hsucc (by simp)
      · intro _
        refine ⟨?_, ?_, ?_⟩
        · rw [← hr]; rfl
        · rw [← hr, ← hst]
        · rw [← hr, ← hst]

/-- Witness for C10 at a concrete failing run (backend unavailable). -/
theorem C10_result_assignment_witness :
    (⟨none, none, none, false⟩ : SDPResultM).y = none
    ∧ (⟨none, none, none, false⟩ : SDPResultM).S = none
    ∧ (⟨none, none, none, false⟩ : SDPResultM).decompositions = none
    ∧ (⟨[1], [[1]], 1, [(0, 1)], ["S_0"], none, none, []⟩ : SolveState)
        = ⟨[1], [[1]], 1, [(0, 1)], ["S_0"], none, none, []⟩ :=
  (C10_result_assignment ⟨[1], [[1]], 1, [(0, 1)], ["S_0"], none, none, []⟩
    false (Except.ok none) ⟨none, none, none, false⟩
    ⟨[1], [[1]], 1, [(0, 1)], ["S_0"], none, none, []⟩ rfl).1 rfl

/-- C4: for every mask (of cardinality m, on a solved masked matrix of size
n×n) pad_masked_rows returns the (n+m)×(n+m) matrix whose rows and columns at
the masked indices are identically zero and whose remaining entries are the
entries of S, indexed by the increasing enumeration of the unmasked
positions — the exact inverse of the row-removal step of masking. -/
theorem C4_pad_masked_rows_inverse {n m : ℕ} (S : Matrix (Fin n) (Fin n) ℚ)
    (mask : Finset (Fin (n + m))) (h : maskᶜ.card = n) :
    (∀ r ∈ mask, ∀ c : Fin (n + m),
      pad_masked_rows S mask h r c = 0 ∧ pad_masked_rows S mask h c r = 0)
    ∧ ∀ v1 v2 : Fin n,
      pad_masked_rows S mask h (maskᶜ.orderIsoOfFin h v1)
        (maskᶜ.orderIsoOfFin h v2) = S v1 v2 := by
  constructor
  · intro r hr c
    have hrn : r ∉ maskᶜ := fun hc => (Finset.mem_compl.mp hc) hr
    constructor
    · unfold pad_masked_rows
      rw [Matrix.of_apply, dif_neg hrn]
    · by_cases hc : c ∈ maskᶜ
      · unfold pad_masked_rows
        rw [Matrix.of_apply, dif_pos hc, dif_neg hrn]
      · unfold pad_masked_rows
        rw [Matrix.of_apply, dif_neg hc]
  · intro v1 v2
    have h1 : ((maskᶜ.orderIsoOfFin h) v1 : Fin (n + m)) ∈ maskᶜ :=
      ((maskᶜ.orderIsoOfFin h) v1).2
    have h2 : ((maskᶜ.orderIsoOfFin h) v2 : Fin (n + m)) ∈ maskᶜ :=
      ((maskᶜ.orderIsoOfFin h) v2).2
    unfold pad_masked_rows
    rw [Matrix.of_apply, dif_pos h1, dif_pos h2, Subtype.coe_eta,
      Subtype.coe_eta, OrderIso.symm_apply_apply, OrderIso.symm_apply_apply]

/-- Witness for C4 at a concrete instance: a 1×1 solved matrix padded into a
2×2 matrix with row/column 0 masked. -/
theorem C4_pad_masked_rows_inverse_witness :
    (@pad_masked_rows 1 1 (Matrix.of ![![(3 : ℚ)]]) ({0} : Finset (Fin 2))
        (by decide) 0 1 = 0
      ∧ @pad_masked_rows 1 1 (Matrix.of ![![(3 : ℚ)]]) ({0} : Finset (Fin 2))
        (by decide) 1 0 = 0) :=
  (@C4_pad_masked_rows_inverse 1 1 (Matrix.of ![![(3 : ℚ)]])
    ({0} : Finset (Fin 2)) (by decide)).1 0 (by decide) 1

/-- C5: set_masked_rows never modifies the stored unmasked originals
(_x0, _space, _splits) — only the masked view is replaced — every call
(including one whose mask system has no solution) resets the numeric
candidate history to empty, and a call with an all-empty mask restores the
unmasked view. -/
theorem C5_set_masked_rows_frame
    (linSolve : List (List ℚ) → List ℚ → Option (List ℚ × List (List ℚ)))
    (masks : List (String × List ℕ)) (st : MaskState) :
    ((set_masked_rows linSolve masks st).2.ux0 = st.ux0
      ∧ (set_masked_rows linSolve masks st).2.uspace = st.uspace
      ∧ (set_masked_rows linSolve masks st).2.usplits = st.usplits)
    ∧ (set_masked_rows linSolve masks st).2.ys = []
    ∧ (masks.all (fun kv => kv.2.isEmpty) = true →
        (set_masked_rows linSolve masks st).2.x0 = st.ux0
        ∧ (set_masked_rows linSolve masks st).2.space = st.uspace
        ∧ (set_masked_rows linSolve masks st).2.splits = st.usplits) := by
  have happly : ∀ st1 : MaskState,
      ((set_masked_rows_apply linSolve masks st1).2.ux0 = st1.ux0
        ∧ (set_masked_rows_apply linSolve masks st1).2.uspace = st1.uspace
        ∧ (set_masked_rows_apply linSolve masks st1).2.usplits = st1.usplits)
      ∧ (set_masked_rows_apply linSolve masks st1).2.ys = st1.ys := by
    intro st1
    unfold set_masked_rows_apply
    cases hls : linSolve (selectRows (maskLines masks st1) st1.space)
        ((selectRows (maskLines masks st1) st1.x0).map fun q => -q) with
    | none => exact ⟨⟨rfl, rfl, rfl⟩, rfl⟩
    | some p =>
      obtain ⟨x1, space1⟩ := p
      exact ⟨⟨rfl, rfl, rfl⟩, rfl⟩
  unfold set_masked_rows
  by_cases hm : masks.all (fun kv => kv.2.isEmpty) = true
  · rw [if_pos hm]
    exact ⟨⟨rfl, rfl, rfl⟩, rfl, fun _ => ⟨rfl, rfl, rfl⟩⟩
  · rw [if_neg hm]
    refine ⟨(happly _).1, (happly _).2, fun habs => absurd habs hm⟩

/-- Witness for C5 at a concrete state with an empty mask dictionary. -/
theorem C5_set_masked_rows_frame_witness :
    (set_masked_rows (fun _ _ => none) []
        ⟨[1], [[1]], [(0, 1)], 1, [2], [[3]], [(0, 3)], 1, [("k", [0])], [[4]], ["k"]⟩).2.x0
      = [1]
    ∧ (set_masked_rows (fun _ _ => none) []
        ⟨[1], [[1]], [(0, 1)], 1, [2], [[3]], [(0, 3)], 1, [("k", [0])], [[4]], ["k"]⟩).2.ys
      = [] :=
  ⟨((C5_set_masked_rows_frame (fun _ _ => none) []
      ⟨[1], [[1]], [(0, 1)], 1, [2], [[3]], [(0, 3)], 1, [("k", [0])], [[4]], ["k"]⟩).2.2
      (by decide)).1,
   (C5_set_masked_rows_frame (fun _ _ => none) []
      ⟨[1], [[1]], [(0, 1)], 1, [2], [[3]], [(0, 3)], 1, [("k", [0])], [[4]], ["k"]⟩).2.1⟩

theorem nsolve_with_early_stop_eq {α : Type} (exec : ℕ → ExecOutcome α)
    (maxIters minIters : ℕ) :
    nsolve_with_early_stop exec maxIters minIters =
      match exec maxIters with
      | .success s => some s
      | .zeroDiv =>
        if minIters ≤ maxIters / 2 ∧ 1 < maxIters then
          nsolve_with_early_stop exec (maxIters / 2) minIters
        else none
      | .otherError => none := by
  conv_lhs => unfold nsolve_with_early_stop
  cases exec maxIters with
  | success s => rfl
  | zeroDiv => rw [dite_eq_ite]
  | otherError => rfl

/-- C6: a numeric solve for one objective starts with an iteration budget of
50 (the call site in _nsolve_with_obj); on a ZeroDivisionError it retries
with the budget halved while the halved budget still reaches the floor of 10
(budgets 50, 25, 12), returning None once halving would drop below the
floor — and no convergence failure ever escapes (the return type has no
error case). -/
theorem C6_iteration_budget {α : Type} (exec : ℕ → ExecOutcome α) :
    (nsolve_with_early_stop exec 50 10 =
      match exec 50 with
      | .success s => some s
      | .otherError => none
      | .zeroDiv =>
        match exec 25 with
        | .success s => some s
        | .otherError => none
        | .zeroDiv =>
          match exec 12 with
          | .success s => some s
          | .zeroDiv => none
          | .otherError => none)
    ∧ ∀ maxIters minIters : ℕ,
      nsolve_with_early_stop exec maxIters minIters =
        match exec maxIters with
        | .success s => some s
        | .zeroDiv =>
          if minIters ≤ maxIters / 2 ∧ 1 < maxIters then
            nsolve_with_early_stop exec (maxIters / 2) minIters
          else none
        | .otherError => none := by
  constructor
  · rw [nsolve_with_early_stop_eq]
    cases h50 : exec 50 with
    | success s => rfl
    | otherError => rfl
    | zeroDiv =>
      rw [if_pos (by norm_num), show (50 : ℕ) / 2 = 25 from by norm_num,
        nsolve_with_early_stop_eq]
      cases h25 : exec 25 with
      | success s => rfl
      | otherError => rfl
      | zeroDiv =>
        rw [if_pos (by norm_num), show (25 : ℕ) / 2 = 12 from by norm_num,
          nsolve_with_early_stop_eq]
        cases h12 : exec 12 with
        | success s => rfl
        | otherError => rfl
        | zeroDiv => rw [if_neg (by norm_num)]
  · exact nsolve_with_early_stop_eq exec

/-- C7 counterexample: the claim says the generator yields exactly one result
per objective; but a successful objective yields the numeric y and then a
None sentinel — two items for a single objective. -/
theorem C7_counterexample_double_yield :
    (nsolve_with_obj_aux (fun _ => some [1]) [("max", ObjExpr.tr "k")] []).1
      = [some [1], none]
    ∧ ([("max", ObjExpr.tr "k")] : List Objective).length = 1
    ∧ (nsolve_with_obj_aux (fun _ => some [1]) [("max", ObjExpr.tr "k")] []).1.length
      = 2 :=
  ⟨rfl, rfl, rfl⟩

/-- C7 (amended): the generator tries the objectives in the caller-given list
order (or the defaults maximize-trace, minimize-trace, maximize-sum of the
first non-empty block), and per objective yields the numeric y followed by a
None sentinel on success, or a single None on failure; every successful y is
appended, in order, to the running numeric-candidate history. -/
theorem C7_objective_iteration :
    (∀ (solveObj : Objective → Option (List ℚ)) (objs : List Objective)
       (ys0 : List (List ℚ)),
       nsolve_with_obj_aux solveObj objs ys0
         = (objs.flatMap fun o =>
              match solveObj o with
              | some yv => [some yv, none]
              | none => [none],
            ys0 ++ objs.filterMap solveObj))
    ∧ ∀ (solveObj : Objective → Option (List ℚ)) (keys : List String)
        (ys0 : List (List ℚ)),
        nsolve_with_obj solveObj none keys ys0
          = nsolve_with_obj_aux solveObj
              [("max", ObjExpr.tr (keys.headD "")),
               ("min", ObjExpr.tr (keys.headD "")),
               ("max", ObjExpr.sumEntries (keys.headD ""))] ys0 := by
  constructor
  · intro solveObj objs
    induction objs with
    | nil =>
      intro ys0
      simp [nsolve_with_obj_aux]
    | cons o rest ih =>
      intro ys0
      unfold nsolve_with_obj_aux
      cases hso : solveObj o with
      | some yv =>
        simp [ih, hso, List.filterMap_cons, List.append_assoc]
      | none =>
        simp [ih, hso, List.filterMap_cons]
  · intro solveObj keys ys0
    rfl

/-- C8: the partial-deflation coordinate fix: with bounds bmax (max solve)
and bmin (min solve), fix = (max+min)/2 and eps = (max−min)/2; when eps is at
most 1e-7 the fix is snapped to a reliable nearby rational (0 when |fix| is
at most 1e-7); else when round(fix) lies strictly between the bounds the fix
is that integer; else fix is rationalized with rounding tolerance 0.8·eps;
the constraint y[i] == fix is appended to the numeric program and the
strategy advances to coordinate i+1. -/
theorem C8_deflation_fix_step (ratReliable : ℚ → ℚ) (ratRound : ℚ → ℚ → ℚ)
    (bmax bmin : ℚ) (cs : List (ℕ × ℚ)) (i : ℕ) :
    (deflationStep ratReliable ratRound bmax bmin cs i
      = (cs ++ [(i, deflationFix ratReliable ratRound bmax bmin)], i + 1))
    ∧ ((bmax - bmin) / 2 ≤ 1 / 10 ^ 7 →
        (|(bmax + bmin) / 2| ≤ 1 / 10 ^ 7 →
          deflationFix ratReliable ratRound bmax bmin = 0)
        ∧ (1 / 10 ^ 7 < |(bmax + bmin) / 2| →
          deflationFix ratReliable ratRound bmax bmin
            = ratReliable ((bmax + bmin) / 2)))
    ∧ (1 / 10 ^ 7 < (bmax - bmin) / 2 →
        (((pythonRound ((bmax + bmin) / 2) : ℚ) < bmax
            ∧ bmin < (pythonRound ((bmax + bmin) / 2) : ℚ)) →
          deflationFix ratReliable ratRound bmax bmin
            = (pythonRound ((bmax + bmin) / 2) : ℚ)
          ∧ ∃ z : ℤ, deflationFix ratReliable ratRound bmax bmin = (z : ℚ)
              ∧ bmin < (z : ℚ) ∧ (z : ℚ) < bmax)
        ∧ (¬((pythonRound ((bmax + bmin) / 2) : ℚ) < bmax
            ∧ bmin < (pythonRound ((bmax + bmin) / 2) : ℚ)) →
          deflationFix ratReliable ratRound bmax bmin
            = ratRound ((bmax + bmin) / 2) ((bmax - bmin) / 2 * (8 / 10)))) := by
  refine ⟨rfl, ?_, ?_⟩
  · intro heps
    constructor
    · intro hfix
      unfold deflationFix
      rw [if_pos heps, if_neg (not_lt.mpr hfix)]
    · intro hfix
      unfold deflationFix
      rw [if_pos heps, if_pos hfix]
  · intro heps
    constructor
    · intro hcond
      constructor
      · unfold deflationFix
        rw [if_neg (not_le.mpr heps), if_pos hcond]
      · refine ⟨pythonRound ((bmax + bmin) / 2), ?_, hcond.2, hcond.1⟩
        unfold deflationFix
        rw [if_neg (not_le.mpr heps), if_pos hcond]
    · intro hcond
      unfold deflationFix
      rw [if_neg (not_le.mpr heps), if_neg hcond]

/-- Witness for C8 at concrete bounds 1 and 0: eps = 1/2 exceeds the
threshold, round(1/2) = 0 does not lie strictly between the bounds, so the
fix is the tolerance rationalization of the midpoint. -/
theorem C8_deflation_fix_step_witness :
    deflationFix (fun q => q) (fun q _ => q) 1 0 = 1 / 2
    ∧ deflationStep (fun q => q) (fun q _ => q) 1 0 [] 0
      = ([(0, deflationFix (fun q => q) (fun q _ => q) 1 0)], 1) := by
  have hpr : pythonRound ((1 + 0 : ℚ) / 2) = 0 := by
    unfold pythonRound
    norm_num
  have h := C8_deflation_fix_step (fun q => q) (fun q _ => q) 1 0 [] 0
  constructor
  · have h2 := (h.2.2 (by norm_num)).2 (by rw [hpr]; norm_num)
    rw [h2]
    norm_num
  · exact h.1

/-- C9 counterexample: the claim says every scoped-constraint wrapper removes
what it added on every exit path including exceptions; but the context
managers have no try/finally, so when the body raises, the cleanup after the
yield is skipped and the added constraint survives. -/
theorem C9_counterexample_exception_leak :
    (restoreConstraintsTrivial [(5 : ℕ)]
        (fun l => ((Except.error 0 : Except ℕ ℕ), l)) ([] : List ℕ)).2 = [5]
    ∧ ([5] : List ℕ) ≠ [] :=
  ⟨rfl, by decide⟩

/-- C9 (amended): the trivial and partial-deflation scoped wrappers remove,
on normal exits only, every constraint beyond the pre-entry count (the
removal loop walks from the last index down), restoring the prior list
whenever the body only appended; on an exception exit no constraint is
removed; the relax wrapper additionally removes the first matching PSD
constraint before adding its two constraints and never re-adds it, so even
its normal exit keeps that removal. -/
theorem C9_scoped_constraints :
    ∀ {α β ε : Type},
    (∀ (extra cs : List α) (body : List α → Except ε β × List α) (a : β)
       (cs2 : List α),
       body (cs ++ extra) = (Except.ok a, cs2) →
       restoreConstraintsTrivial extra body cs
         = (Except.ok a, cs2.take cs.length)
       ∧ ∀ tail2 : List α, cs2 = cs ++ tail2 →
           (restoreConstraintsTrivial extra body cs).2 = cs)
    ∧ (∀ (extra cs : List α) (body : List α → Except ε β × List α) (e : ε)
         (cs2 : List α),
       body (cs ++ extra) = (Except.error e, cs2) →
       restoreConstraintsTrivial extra body cs = (Except.error e, cs2))
    ∧ (∀ (cs : List α) (body : List α → Except ε β × List α) (a : β)
         (cs2 : List α),
       body cs = (Except.ok a, cs2) →
       restoreConstraintsDeflation body cs = (Except.ok a, cs2.take cs.length))
    ∧ (∀ (cs : List α) (body : List α → Except ε β × List α) (e : ε)
         (cs2 : List α),
       body cs = (Except.error e, cs2) →
       restoreConstraintsDeflation body cs = (Except.error e, cs2))
    ∧ (∀ (isObjLMI : α → Bool) (c1 c2 : α) (cs : List α)
         (body : List α → Except ε β × List α) (a : β) (cs2 : List α),
       body (removeFirstLMI isObjLMI cs ++ [c1, c2]) = (Except.ok a, cs2) →
       restoreConstraintsRelax isObjLMI c1 c2 body cs
         = (Except.ok a, cs2.dropLast.dropLast))
    ∧ (∀ (isObjLMI : α → Bool) (c1 c2 : α) (cs : List α)
         (body : List α → Except ε β × List α) (e : ε) (cs2 : List α),
       body (removeFirstLMI isObjLMI cs ++ [c1, c2]) = (Except.error e, cs2) →
       restoreConstraintsRelax isObjLMI c1 c2 body cs = (Except.error e, cs2)) := by
  intro α β ε
  refine ⟨?_, ?_, ?_, ?_, ?_, ?_⟩
  · intro extra cs body a cs2 hbody
    have h1 : restoreConstraintsTrivial extra body cs
        = (Except.ok a, cs2.take cs.length) := by
      unfold restoreConstraintsTrivial removeDownTo
      rw [hbody]
    refine ⟨h1, fun tail2 htail => ?_⟩
    rw [h1, htail]
    exact List.take_left cs tail2
  · intro extra cs body e cs2 hbody
    unfold restoreConstraintsTrivial
    rw [hbody]
  · intro cs body a cs2 hbody
    unfold restoreConstraintsDeflation removeDownTo
    rw [hbody]
  · intro cs body e cs2 hbody
    unfold restoreConstraintsDeflation
    rw [hbody]
  · intro isObjLMI c1 c2 cs body a cs2 hbody
    unfold restoreConstraintsRelax
    rw [hbody]
  · intro isObjLMI c1 c2 cs body e cs2 hbody
    unfold restoreConstraintsRelax
    rw [hbody]

/-- Witness for C9: a body that appends one constraint and returns normally
is retracted exactly, restoring the prior constraint list. -/
theorem C9_scoped_constraints_witness :
    restoreConstraintsTrivial [5]
        (fun l => ((Except.ok 0 : Except ℕ ℕ), l ++ [7])) [9]
      = (Except.ok 0, [9]) := by
  have h := (C9_scoped_constraints.1 [5] [9]
    (fun l => ((Except.ok 0 : Except ℕ ℕ), l ++ [7])) 0 [9, 5, 7] rfl).1
  simpa using h

end TripleSOS
